import Mathlib

/-!
Shallow embedding of the vaccination-center placement program (`pbl.py`).

The program builds an undirected graph (a chain of nodes `1..N` with a
population attached to each node), runs a greedy center-placement loop
(`greedy_center_placement`), and reports per-center coverage sets, the
residual uncovered set and population-weighted coverage statistics.

The embedding below mirrors the source:
* `covered_nodes` embeds the helper of the same name: all nodes whose
  shortest-path hop-distance from the center is at most `X` (computed here
  as the iterated closed neighborhood, which is exactly the BFS ball that
  `nx.single_source_shortest_path_length` enumerates).  The radius is an
  integer as in the source; for a negative radius no distance satisfies
  `dist <= X`, so the set is empty.
* `selectBest` embeds the inner `for node in G.nodes()` scan with its
  `(best_node, best_cover)` accumulator and the strict `>` update.
* `greedyLoop` embeds the `while uncovered:` loop.  The source loop has no
  built-in bound, so the embedding carries a fuel parameter; `none` means
  the loop has not terminated within the given fuel.
  `greedy_center_placement` supplies fuel `N` (the loop provably needs at
  most `N` iterations when it terminates at all).
* `center_coverage_list`, `all_covered`, `uncovered_final`,
  `total_population`, `covered_population` and `coverage_percent` embed the
  reporting block (lines 119-131); `coverage_percent` returns `none` when
  the divisor `total_population` is zero, modelling the `ZeroDivisionError`
  the source raises there.
* `chainGraph` embeds the graph construction of lines 109-113.
-/

namespace Pbl

/-- A finite undirected graph as the program builds it with `networkx`:
a list of node identifiers in insertion order (which is the stable
iteration order of `G.nodes()`), a list of undirected edges, and a
population weight per node. -/
structure Graph where
  nodes : List ℕ
  edges : List (ℕ × ℕ)
  pop : ℕ → ℕ

/-- Adjacency: an undirected edge is stored once but relates both ways. -/
def Graph.Adj (G : Graph) (w u : ℕ) : Prop :=
  (w, u) ∈ G.edges ∨ (u, w) ∈ G.edges

instance (G : Graph) (w u : ℕ) : Decidable (G.Adj w u) := by
  unfold Graph.Adj; exact inferInstance

/-- The node set of the graph. -/
def Graph.nodeSet (G : Graph) : Finset ℕ := G.nodes.toFinset

/-- One breadth-first expansion step: the closed neighborhood of `s`
inside the graph's node set. -/
def Graph.expand (G : Graph) (s : Finset ℕ) : Finset ℕ :=
  G.nodeSet.filter (fun u => u ∈ s ∨ ∃ w ∈ s, G.Adj w u)

/-- The BFS ball of radius `k` around `v`: all nodes at hop-distance at
most `k` from `v`. -/
def Graph.ball (G : Graph) (v : ℕ) : ℕ → Finset ℕ
  | 0 => {v}
  | k + 1 => G.expand (G.ball v k)

/-- Embedding of `covered_nodes(G, center, X)` (lines 71-73): the nodes
whose shortest-path distance from `center` is at most `X`.  Every
distance is a non-negative integer, so a negative radius admits no node
at all. -/
def covered_nodes (G : Graph) (center : ℕ) (X : ℤ) : Finset ℕ :=
  if X < 0 then ∅ else G.ball center X.toNat

/-- One step of the accumulator scan of lines 80-84: replace the current
best exactly when the candidate covers strictly more uncovered nodes. -/
def selStep (G : Graph) (X : ℤ) (uncovered : Finset ℕ)
    (best : Option ℕ × Finset ℕ) (node : ℕ) : Option ℕ × Finset ℕ :=
  let cover := covered_nodes G node X ∩ uncovered
  if best.2.card < cover.card then (some node, cover) else best

/-- The full `for node in G.nodes()` scan of one loop iteration
(lines 80-84), starting from `(None, set())`. -/
def selectBest (G : Graph) (X : ℤ) (uncovered : Finset ℕ) :
    Option ℕ × Finset ℕ :=
  G.nodes.foldl (selStep G X uncovered) (none, ∅)

/-- Fuel-bounded embedding of the `while uncovered:` loop of lines 79-86:
append the selected best node, remove its incremental cover, repeat.
Returns `none` when the loop does not finish within `fuel` iterations. -/
def greedyLoop (G : Graph) (X : ℤ) :
    ℕ → Finset ℕ → List (Option ℕ) → Option (List (Option ℕ))
  | 0, uncovered, centers => if uncovered = ∅ then some centers else none
  | fuel + 1, uncovered, centers =>
    if uncovered = ∅ then some centers
    else
      greedyLoop G X fuel (uncovered \ (selectBest G X uncovered).2)
        (centers ++ [(selectBest G X uncovered).1])

/-- Embedding of `greedy_center_placement(G, X)` (lines 75-87).  The fuel
`N` is an upper bound on the iterations the source loop can take when it
terminates, which is proved below. -/
def greedy_center_placement (G : Graph) (X : ℤ) :
    Option (List (Option ℕ)) :=
  greedyLoop G X G.nodes.length G.nodeSet []

/-- Embedding of line 123: the reported coverage of one center is its
full reach `covered_nodes(G, c, X)`, sorted ascending. -/
def center_coverage_list (G : Graph) (X : ℤ) (c : ℕ) : List ℕ :=
  (covered_nodes G c X).sort (· ≤ ·)

/-- Embedding of the `all_covered` accumulation of lines 120-124: the
union of the full reach sets of the chosen centers.  The source would
fault on a `None` entry; the placement loop provably never produces one
for a non-negative radius, so the `Option.elim` default is unreachable
in every run considered below. -/
def all_covered (G : Graph) (X : ℤ) (centers : List (Option ℕ)) : Finset ℕ :=
  centers.foldl (fun acc c => acc ∪ c.elim ∅ (fun v => covered_nodes G v X)) ∅

/-- Embedding of line 126: the nodes left uncovered after reporting. -/
def uncovered_final (G : Graph) (X : ℤ) (centers : List (Option ℕ)) :
    Finset ℕ :=
  G.nodeSet \ all_covered G X centers

/-- Embedding of line 129: the sum of the population list. -/
def total_population (G : Graph) : ℕ := (G.nodes.map G.pop).sum

/-- Embedding of line 130: the population carried by the covered nodes. -/
def covered_population (G : Graph) (X : ℤ) (centers : List (Option ℕ)) : ℕ :=
  ∑ n ∈ all_covered G X centers, G.pop n

/-- Embedding of line 131: `covered_population / total_population * 100`
as exact rational arithmetic.  A zero total population makes the division
raise `ZeroDivisionError` in the source, modelled by `none`. -/
def coverage_percent (G : Graph) (X : ℤ) (centers : List (Option ℕ)) :
    Option ℚ :=
  if total_population G = 0 then none
  else some ((covered_population G X centers : ℚ) /
    (total_population G : ℚ) * 100)

/-- Embedding of the graph construction of lines 109-113: nodes `1..N`
with the i-th population, and an edge between consecutive nodes. -/
def chainGraph (N : ℕ) (pops : List ℕ) : Graph where
  nodes := List.range' 1 N
  edges := (List.range' 1 (N - 1)).map (fun i => (i, i + 1))
  pop := fun i => pops.getD (i - 1) 0

/-! ### The accumulator scan: first node of maximal gain -/

/-- Invariant of the `(best_node, best_cover)` scan: folding `selStep`
over any candidate list either leaves the accumulator untouched (every
candidate's gain is at most the accumulator's), or returns the first
candidate whose gain strictly exceeds the accumulator's and is never
strictly exceeded later. -/
lemma foldl_selStep_spec (G : Graph) (X : ℤ) (uncovered : Finset ℕ) :
    ∀ (l : List ℕ) (b : Option ℕ × Finset ℕ),
      (l.foldl (selStep G X uncovered) b = b ∧
        ∀ u ∈ l, (covered_nodes G u X ∩ uncovered).card ≤ b.2.card) ∨
      (∃ l1 v l2, l = l1 ++ v :: l2 ∧
        l.foldl (selStep G X uncovered) b =
          (some v, covered_nodes G v X ∩ uncovered) ∧
        b.2.card < (covered_nodes G v X ∩ uncovered).card ∧
        (∀ u ∈ l1, (covered_nodes G u X ∩ uncovered).card <
          (covered_nodes G v X ∩ uncovered).card) ∧
        (∀ u ∈ l2, (covered_nodes G u X ∩ uncovered).card ≤
          (covered_nodes G v X ∩ uncovered).card)) := by
  intro l
  induction l with
  | nil => intro b; left; exact ⟨rfl, by simp⟩
  | cons a t ih =>
    intro b
    by_cases h : b.2.card < (covered_nodes G a X ∩ uncovered).card
    · have hstep : selStep G X uncovered b a =
          (some a, covered_nodes G a X ∩ uncovered) := by
        simp [selStep, h]
      rcases ih (some a, covered_nodes G a X ∩ uncovered) with
        ⟨heq, hall⟩ | ⟨l1, v, l2, hl, hres, hlt, hbef, haft⟩
      · right
        refine ⟨[], a, t, rfl, ?_, h, by simp, ?_⟩
        · rw [List.foldl_cons, hstep, heq]
        · intro u hu; simpa using hall u hu
      · right
        refine ⟨a :: l1, v, l2, by rw [hl, List.cons_append], ?_, ?_, ?_, haft⟩
        · rw [List.foldl_cons, hstep, hres]
        · exact lt_trans h (by simpa using hlt)
        · intro u hu
          rcases List.mem_cons.mp hu with rfl | hu
          · simpa using hlt
          · exact hbef u hu
    · have hstep : selStep G X uncovered b a = b := by simp [selStep, h]
      rcases ih b with ⟨heq, hall⟩ | ⟨l1, v, l2, hl, hres, hlt, hbef, haft⟩
      · left
        refine ⟨by rw [List.foldl_cons, hstep, heq], ?_⟩
        intro u hu
        rcases List.mem_cons.mp hu with rfl | hu
        · exact Nat.le_of_not_lt h
        · exact hall u hu
      · right
        refine ⟨a :: l1, v, l2, by rw [hl, List.cons_append], ?_, hlt, ?_, haft⟩
        · rw [List.foldl_cons, hstep, hres]
        · intro u hu
          rcases List.mem_cons.mp hu with rfl | hu
          · exact lt_of_le_of_lt (Nat.le_of_not_lt h) hlt
          · exact hbef u hu

/-- Specialization of the scan invariant to the initial accumulator
`(None, set())` used by the source. -/
lemma selectBest_spec (G : Graph) (X : ℤ) (uncovered : Finset ℕ) :
    (selectBest G X uncovered = (none, ∅) ∧
      ∀ u ∈ G.nodes, covered_nodes G u X ∩ uncovered = ∅) ∨
    (∃ l1 v l2, G.nodes = l1 ++ v :: l2 ∧
      selectBest G X uncovered = (some v, covered_nodes G v X ∩ uncovered) ∧
      0 < (covered_nodes G v X ∩ uncovered).card ∧
      (∀ u ∈ l1, (covered_nodes G u X ∩ uncovered).card <
        (covered_nodes G v X ∩ uncovered).card) ∧
      (∀ u ∈ l2, (covered_nodes G u X ∩ uncovered).card ≤
        (covered_nodes G v X ∩ uncovered).card)) := by
  rcases foldl_selStep_spec G X uncovered G.nodes (none, ∅) with
    ⟨heq, hall⟩ | ⟨l1, v, l2, hl, hres, hlt, hbef, haft⟩
  · left
    refine ⟨heq, fun u hu => Finset.card_eq_zero.mp ?_⟩
    have := hall u hu
    simpa using this
  · right
    exact ⟨l1, v, l2, hl, hres, by simpa using hlt, hbef, haft⟩

/-- A node belongs to every ball centered at itself, provided it is a
node of the graph (the ball of radius 0 needs no such assumption). -/
lemma mem_ball_self (G : Graph) (v : ℕ) (hv : v ∈ G.nodes) :
    ∀ k, v ∈ G.ball v k := by
  intro k
  induction k with
  | zero => simp [Graph.ball]
  | succ k ih =>
    simp only [Graph.ball, Graph.expand, Finset.mem_filter]
    exact ⟨List.mem_toFinset.mpr hv, Or.inl ih⟩

/-- With a non-negative radius every node covers at least itself. -/
lemma mem_covered_nodes_self (G : Graph) (X : ℤ) (v : ℕ) (hX : 0 ≤ X)
    (hv : v ∈ G.nodes) : v ∈ covered_nodes G v X := by
  rw [covered_nodes, if_neg (not_lt.mpr hX)]
  exact mem_ball_self G v hv _

/-- Balls around graph nodes stay inside the node set. -/
lemma ball_subset_nodeSet (G : Graph) (v : ℕ) (hv : v ∈ G.nodes) :
    ∀ k, G.ball v k ⊆ G.nodeSet := by
  intro k
  cases k with
  | zero =>
    intro u hu
    rw [Graph.ball, Finset.mem_singleton] at hu
    subst hu
    exact List.mem_toFinset.mpr hv
  | succ k => exact fun u hu => (Finset.mem_filter.mp hu).1

/-- Coverage sets of graph nodes stay inside the node set. -/
lemma covered_nodes_subset (G : Graph) (X : ℤ) (v : ℕ) (hv : v ∈ G.nodes) :
    covered_nodes G v X ⊆ G.nodeSet := by
  rw [covered_nodes]
  split
  · exact Finset.empty_subset _
  · exact ball_subset_nodeSet G v hv _

/-- When the radius is non-negative and some node is still uncovered, the
scan does select a node: its gain is maximal over all nodes, and every
node listed before it has strictly smaller gain. -/
lemma selectBest_finds (G : Graph) (X : ℤ) (uncovered : Finset ℕ)
    (hX : 0 ≤ X) (hne : uncovered.Nonempty) (hsub : uncovered ⊆ G.nodeSet) :
    ∃ l1 v l2, G.nodes = l1 ++ v :: l2 ∧
      selectBest G X uncovered = (some v, covered_nodes G v X ∩ uncovered) ∧
      0 < (covered_nodes G v X ∩ uncovered).card ∧
      (∀ u ∈ G.nodes, (covered_nodes G u X ∩ uncovered).card ≤
        (covered_nodes G v X ∩ uncovered).card) ∧
      (∀ u ∈ l1, (covered_nodes G u X ∩ uncovered).card <
        (covered_nodes G v X ∩ uncovered).card) := by
  rcases selectBest_spec G X uncovered with ⟨_, hall⟩ |
    ⟨l1, v, l2, hl, hres, hpos, hbef, haft⟩
  · obtain ⟨u, hu⟩ := hne
    have hun : u ∈ G.nodes := List.mem_toFinset.mp (hsub hu)
    have : u ∈ covered_nodes G u X ∩ uncovered :=
      Finset.mem_inter.mpr ⟨mem_covered_nodes_self G X u hX hun, hu⟩
    rw [hall u hun] at this
    exact absurd this (Finset.not_mem_empty u)
  · refine ⟨l1, v, l2, hl, hres, hpos, ?_, hbef⟩
    intro u hu
    rw [hl] at hu
    rcases List.mem_append.mp hu with hu | hu
    · exact le_of_lt (hbef u hu)
    · rcases List.mem_cons.mp hu with rfl | hu
      · exact le_refl _
      · exact haft u hu

/-- The cover recorded by the scan is a subset of the uncovered set. -/
lemma selectBest_snd_subset (G : Graph) (X : ℤ) (uncovered : Finset ℕ) :
    (selectBest G X uncovered).2 ⊆ uncovered := by
  rcases selectBest_spec G X uncovered with ⟨hres, _⟩ |
    ⟨l1, v, l2, _, hres, _, _, _⟩ <;> rw [hres]
  · exact Finset.empty_subset _
  · exact Finset.inter_subset_right

/-- The cover recorded by the scan is inside the selected node's full
coverage set (trivially, when no node was selected the cover is empty). -/
lemma selectBest_snd_subset_reach (G : Graph) (X : ℤ) (uncovered : Finset ℕ) :
    (selectBest G X uncovered).2 ⊆
      (selectBest G X uncovered).1.elim ∅ (fun v => covered_nodes G v X) := by
  rcases selectBest_spec G X uncovered with ⟨hres, _⟩ |
    ⟨l1, v, l2, _, hres, _, _, _⟩ <;> rw [hres]
  · exact Finset.Subset.refl _
  · exact Finset.inter_subset_left

/-- A selected node is always a node of the graph. -/
lemma selectBest_fst_mem (G : Graph) (X : ℤ) (uncovered : Finset ℕ) (v : ℕ)
    (h : (selectBest G X uncovered).1 = some v) : v ∈ G.nodes := by
  rcases selectBest_spec G X uncovered with ⟨hres, _⟩ |
    ⟨l1, w, l2, hl, hres, _, _, _⟩ <;> rw [hres] at h
  · exact absurd h (by simp)
  · obtain rfl : w = v := by simpa using h
    rw [hl]
    exact List.mem_append.mpr (Or.inr (List.mem_cons_self _ _))

/-- Unfolding of one iteration of the loop on a non-empty uncovered set. -/
lemma greedyLoop_succ (G : Graph) (X : ℤ) (fuel : ℕ) (uncovered : Finset ℕ)
    (centers : List (Option ℕ)) (h : uncovered ≠ ∅) :
    greedyLoop G X (fuel + 1) uncovered centers =
      greedyLoop G X fuel (uncovered \ (selectBest G X uncovered).2)
        (centers ++ [(selectBest G X uncovered).1]) := by
  simp [greedyLoop, h]

/-- The loop exits as soon as the uncovered set is empty. -/
lemma greedyLoop_empty (G : Graph) (X : ℤ) (fuel : ℕ)
    (centers : List (Option ℕ)) :
    greedyLoop G X fuel ∅ centers = some centers := by
  cases fuel <;> simp [greedyLoop]

/-!
### C1: each iteration scans all nodes and picks the first maximal gain
-/

/-- C1.  In every iteration of the greedy placement loop the gain
`|covered_nodes(v, X) ∩ uncovered|` is measured for every node `v` of the
graph — the scan runs over the whole node list, covered nodes and earlier
centers included — and the node handed to the loop (and appended to
`centers`) is one of strictly maximal gain, ties going to the node that
comes first in the graph's stable node iteration order: every node listed
before the selected one has strictly smaller gain, and no node at all has
larger gain. -/
theorem greedy_iteration_first_max (G : Graph) (X : ℤ) (uncovered : Finset ℕ)
    (hX : 0 ≤ X) (hne : uncovered.Nonempty) (hsub : uncovered ⊆ G.nodeSet) :
    ∃ l1 v l2, G.nodes = l1 ++ v :: l2 ∧
      selectBest G X uncovered = (some v, covered_nodes G v X ∩ uncovered) ∧
      (∀ u ∈ G.nodes, (covered_nodes G u X ∩ uncovered).card ≤
        (covered_nodes G v X ∩ uncovered).card) ∧
      (∀ u ∈ l1, (covered_nodes G u X ∩ uncovered).card <
        (covered_nodes G v X ∩ uncovered).card) ∧
      (∀ fuel centers, greedyLoop G X (fuel + 1) uncovered centers =
        greedyLoop G X fuel (uncovered \ (covered_nodes G v X ∩ uncovered))
          (centers ++ [some v])) := by
  obtain ⟨l1, v, l2, hl, hres, hpos, hmax, hbef⟩ :=
    selectBest_finds G X uncovered hX hne hsub
  refine ⟨l1, v, l2, hl, hres, hmax, hbef, ?_⟩
  intro fuel centers
  rw [greedyLoop_succ G X fuel uncovered centers
    (Finset.nonempty_iff_ne_empty.mp hne), hres]

/-- Witness for `greedy_iteration_first_max` on the 5-node chain with
radius 1 and everything still uncovered. -/
theorem greedy_iteration_first_max_witness :
    0 ≤ (1 : ℤ) ∧
    (chainGraph 5 [10, 10, 10, 10, 10]).nodeSet.Nonempty ∧
    (chainGraph 5 [10, 10, 10, 10, 10]).nodeSet ⊆
      (chainGraph 5 [10, 10, 10, 10, 10]).nodeSet ∧
    (∃ l1 v l2, (chainGraph 5 [10, 10, 10, 10, 10]).nodes = l1 ++ v :: l2 ∧
      selectBest (chainGraph 5 [10, 10, 10, 10, 10]) 1
          (chainGraph 5 [10, 10, 10, 10, 10]).nodeSet =
        (some v, covered_nodes (chainGraph 5 [10, 10, 10, 10, 10]) v 1 ∩
          (chainGraph 5 [10, 10, 10, 10, 10]).nodeSet) ∧
      (∀ u ∈ (chainGraph 5 [10, 10, 10, 10, 10]).nodes,
        (covered_nodes (chainGraph 5 [10, 10, 10, 10, 10]) u 1 ∩
          (chainGraph 5 [10, 10, 10, 10, 10]).nodeSet).card ≤
        (covered_nodes (chainGraph 5 [10, 10, 10, 10, 10]) v 1 ∩
          (chainGraph 5 [10, 10, 10, 10, 10]).nodeSet).card) ∧
      (∀ u ∈ l1,
        (covered_nodes (chainGraph 5 [10, 10, 10, 10, 10]) u 1 ∩
          (chainGraph 5 [10, 10, 10, 10, 10]).nodeSet).card <
        (covered_nodes (chainGraph 5 [10, 10, 10, 10, 10]) v 1 ∩
          (chainGraph 5 [10, 10, 10, 10, 10]).nodeSet).card) ∧
      (∀ fuel centers,
        greedyLoop (chainGraph 5 [10, 10, 10, 10, 10]) 1 (fuel + 1)
          (chainGraph 5 [10, 10, 10, 10, 10]).nodeSet centers =
        greedyLoop (chainGraph 5 [10, 10, 10, 10, 10]) 1 fuel
          ((chainGraph 5 [10, 10, 10, 10, 10]).nodeSet \
            (covered_nodes (chainGraph 5 [10, 10, 10, 10, 10]) v 1 ∩
              (chainGraph 5 [10, 10, 10, 10, 10]).nodeSet))
          (centers ++ [some v]))) :=
  ⟨by decide, by decide, Finset.Subset.refl _,
    greedy_iteration_first_max (chainGraph 5 [10, 10, 10, 10, 10]) 1
      (chainGraph 5 [10, 10, 10, 10, 10]).nodeSet (by decide) (by decide)
      (Finset.Subset.refl _)⟩

/-! ### Termination of the loop -/

/-- With a non-negative radius the loop terminates within `card uncovered`
iterations: each pass removes the selected node's non-empty gain set. -/
lemma greedyLoop_total (G : Graph) (X : ℤ) (hX : 0 ≤ X) :
    ∀ (fuel : ℕ) (uncovered : Finset ℕ) (centers : List (Option ℕ)),
      uncovered ⊆ G.nodeSet → uncovered.card ≤ fuel →
      ∃ cs, greedyLoop G X fuel uncovered centers = some cs := by
  intro fuel
  induction fuel with
  | zero =>
    intro uncovered centers _ hcard
    have h : uncovered = ∅ := Finset.card_eq_zero.mp (Nat.le_zero.mp hcard)
    exact ⟨centers, by rw [h]; exact greedyLoop_empty G X 0 centers⟩
  | succ fuel ih =>
    intro uncovered centers hsub hcard
    by_cases hne : uncovered = ∅
    · exact ⟨centers, by rw [hne]; exact greedyLoop_empty G X _ centers⟩
    · have hne' : uncovered.Nonempty := Finset.nonempty_iff_ne_empty.mpr hne
      obtain ⟨l1, v, l2, hl, hres, hpos, hmax, hbef⟩ :=
        selectBest_finds G X uncovered hX hne' hsub
      have hposs : 0 < (selectBest G X uncovered).2.card := by
        rw [hres]; exact hpos
      have hcard' : (uncovered \ (selectBest G X uncovered).2).card ≤ fuel := by
        have := Finset.card_sdiff (selectBest_snd_subset G X uncovered)
        omega
      obtain ⟨cs, hcs⟩ := ih (uncovered \ (selectBest G X uncovered).2)
        (centers ++ [(selectBest G X uncovered).1])
        (Finset.Subset.trans (Finset.sdiff_subset) hsub) hcard'
      exact ⟨cs, by rw [greedyLoop_succ G X fuel uncovered centers hne]; exact hcs⟩

/-!
### C3: the greedy loop terminates in at most N iterations
-/

/-- C3.  For every graph and every radius `X ≥ 0` the greedy loop
terminates: whenever nodes remain uncovered the selected cover is
non-empty, so each iteration strictly shrinks the uncovered set (every
uncovered node covers at least itself at distance 0), and the run with
fuel `N` — at most `N` iterations — completes with a result. -/
theorem greedy_terminates (G : Graph) (X : ℤ) (hX : 0 ≤ X) :
    (∀ uncovered : Finset ℕ, uncovered.Nonempty → uncovered ⊆ G.nodeSet →
      uncovered \ (selectBest G X uncovered).2 ⊂ uncovered) ∧
    ∃ cs, greedy_center_placement G X = some cs := by
  constructor
  · intro uncovered hne hsub
    obtain ⟨l1, v, l2, hl, hres, hpos, _, _⟩ :=
      selectBest_finds G X uncovered hX hne hsub
    refine Finset.sdiff_ssubset (selectBest_snd_subset G X uncovered) ?_
    rw [hres]
    exact Finset.card_pos.mp hpos
  · exact greedyLoop_total G X hX G.nodes.length G.nodeSet []
      (Finset.Subset.refl _) G.nodes.toFinset_card_le

/-- Witness for `greedy_terminates` on the 5-node chain with radius 1. -/
theorem greedy_terminates_witness :
    0 ≤ (1 : ℤ) ∧
    ((∀ uncovered : Finset ℕ, uncovered.Nonempty →
      uncovered ⊆ (chainGraph 5 [10, 10, 10, 10, 10]).nodeSet →
      uncovered \
        (selectBest (chainGraph 5 [10, 10, 10, 10, 10]) 1 uncovered).2 ⊂
        uncovered) ∧
    ∃ cs, greedy_center_placement (chainGraph 5 [10, 10, 10, 10, 10]) 1 =
      some cs) :=
  ⟨by decide, greedy_terminates (chainGraph 5 [10, 10, 10, 10, 10]) 1
    (by decide)⟩

/-! ### The union of the reported coverage sets -/

/-- The contribution of one recorded center to `all_covered`. -/
def centerReach (G : Graph) (X : ℤ) (c : Option ℕ) : Finset ℕ :=
  c.elim ∅ (fun v => covered_nodes G v X)

/-- The union accumulation only ever grows. -/
lemma subset_foldl_union (G : Graph) (X : ℤ) :
    ∀ (cs : List (Option ℕ)) (acc : Finset ℕ),
      acc ⊆ cs.foldl (fun a c => a ∪ centerReach G X c) acc := by
  intro cs
  induction cs with
  | nil => intro acc; exact Finset.Subset.refl _
  | cons c t ih =>
    intro acc
    exact Finset.Subset.trans Finset.subset_union_left (ih (acc ∪ _))

/-- Each recorded center's reach lands inside the accumulated union. -/
lemma centerReach_subset_foldl (G : Graph) (X : ℤ) :
    ∀ (cs : List (Option ℕ)) (acc : Finset ℕ) (c : Option ℕ), c ∈ cs →
      centerReach G X c ⊆ cs.foldl (fun a b => a ∪ centerReach G X b) acc := by
  intro cs
  induction cs with
  | nil => intro acc c hc; exact absurd hc (List.not_mem_nil c)
  | cons d t ih =>
    intro acc c hc
    rcases List.mem_cons.mp hc with rfl | hc
    · exact Finset.Subset.trans Finset.subset_union_right
        (subset_foldl_union G X t (acc ∪ _))
    · exact ih (acc ∪ _) c hc

/-- Membership form of the two previous lemmas, at the definition
`all_covered`. -/
lemma centerReach_subset_all_covered (G : Graph) (X : ℤ)
    (cs : List (Option ℕ)) (c : Option ℕ) (hc : c ∈ cs) :
    centerReach G X c ⊆ all_covered G X cs :=
  centerReach_subset_foldl G X cs ∅ c hc

/-- Every run of the loop ends with the initial uncovered set inside the
union of the reported reaches of the centers it returns, the returned
list extending the accumulator with selected graph nodes only. -/
lemma greedyLoop_covers (G : Graph) (X : ℤ) :
    ∀ (fuel : ℕ) (uncovered : Finset ℕ) (centers cs : List (Option ℕ)),
      greedyLoop G X fuel uncovered centers = some cs →
      (∃ tail, cs = centers ++ tail ∧
        ∀ c ∈ tail, ∀ v, c = some v → v ∈ G.nodes) ∧
      uncovered ⊆ all_covered G X cs := by
  intro fuel
  induction fuel with
  | zero =>
    intro uncovered centers cs h
    rw [greedyLoop] at h
    by_cases hne : uncovered = ∅
    · rw [if_pos hne] at h
      obtain rfl : centers = cs := by simpa using h
      subst hne
      exact ⟨⟨[], by simp, by simp⟩, Finset.empty_subset _⟩
    · rw [if_neg hne] at h
      exact absurd h (by simp)
  | succ fuel ih =>
    intro uncovered centers cs h
    by_cases hne : uncovered = ∅
    · rw [hne, greedyLoop_empty] at h
      obtain rfl : centers = cs := by simpa using h
      subst hne
      exact ⟨⟨[], by simp, by simp⟩, Finset.empty_subset _⟩
    · rw [greedyLoop_succ G X fuel uncovered centers hne] at h
      obtain ⟨⟨tail, htail, hmem⟩, hcov⟩ := ih _ _ _ h
      constructor
      · refine ⟨(selectBest G X uncovered).1 :: tail, by simpa using htail, ?_⟩
        intro c hc v hv
        rcases List.mem_cons.mp hc with rfl | hc
        · exact selectBest_fst_mem G X uncovered v hv
        · exact hmem c hc v hv
      · intro u hu
        by_cases hu' : u ∈ (selectBest G X uncovered).2
        · have hsel : (selectBest G X uncovered).1 ∈ cs := by
            rw [htail]
            exact List.mem_append.mpr (Or.inl (by simp))
          exact centerReach_subset_all_covered G X cs _ hsel
            (selectBest_snd_subset_reach G X uncovered hu')
        · exact hcov (Finset.mem_sdiff.mpr ⟨hu, hu'⟩)

/-- The union of the reported reaches of graph nodes stays inside the
node set. -/
lemma all_covered_subset_nodeSet (G : Graph) (X : ℤ)
    (cs : List (Option ℕ)) (h : ∀ c ∈ cs, ∀ v, c = some v → v ∈ G.nodes) :
    all_covered G X cs ⊆ G.nodeSet := by
  rw [all_covered]
  have : ∀ (l : List (Option ℕ)) (acc : Finset ℕ),
      (∀ c ∈ l, ∀ v, c = some v → v ∈ G.nodes) → acc ⊆ G.nodeSet →
      l.foldl (fun a c => a ∪ centerReach G X c) acc ⊆ G.nodeSet := by
    intro l
    induction l with
    | nil => intro acc _ hacc; exact hacc
    | cons c t iht =>
      intro acc hl hacc
      refine iht (acc ∪ centerReach G X c) (fun d hd => hl d (by simp [hd])) ?_
      refine Finset.union_subset hacc ?_
      cases c with
      | none => simp [centerReach]
      | some v =>
        exact covered_nodes_subset G X v (hl (some v) (by simp) v rfl)
  exact this cs ∅ h (Finset.empty_subset _)

/-!
### C2: after placement nothing is left uncovered
-/

/-- C2.  For every finite graph — connected or not — and every radius
`X ≥ 0`, the placement run completes and the final uncovered set, all
nodes minus the union of the chosen centers' full reach sets, is empty. -/
theorem greedy_full_coverage (G : Graph) (X : ℤ) (hX : 0 ≤ X) :
    ∃ cs, greedy_center_placement G X = some cs ∧
      uncovered_final G X cs = ∅ := by
  obtain ⟨cs, hcs⟩ := (greedy_terminates G X hX).2
  refine ⟨cs, hcs, ?_⟩
  obtain ⟨_, hcov⟩ := greedyLoop_covers G X G.nodes.length G.nodeSet [] cs hcs
  rw [uncovered_final, Finset.sdiff_eq_empty_iff_subset]
  exact hcov

/-- Witness for `greedy_full_coverage`: a disconnected graph (two chain
components) with radius 0 is still fully covered. -/
theorem greedy_full_coverage_witness :
    0 ≤ (0 : ℤ) ∧
    ∃ cs, greedy_center_placement
        ⟨[1, 2, 3, 4], [(1, 2), (3, 4)], fun _ => 10⟩ 0 = some cs ∧
      uncovered_final ⟨[1, 2, 3, 4], [(1, 2), (3, 4)], fun _ => 10⟩ 0 cs = ∅ :=
  ⟨by decide, greedy_full_coverage
    ⟨[1, 2, 3, 4], [(1, 2), (3, 4)], fun _ => 10⟩ 0 (by decide)⟩

/-!
### C7: population conservation
-/

/-- C7.  In every run (non-negative radius, distinct node identifiers as
the program constructs them) the covered population plus the total
population of the finally uncovered nodes equals the total population,
as an exact equation on natural numbers. -/
theorem population_conservation (G : Graph) (X : ℤ) (hX : 0 ≤ X)
    (hnd : G.nodes.Nodup) :
    ∃ cs, greedy_center_placement G X = some cs ∧
      covered_population G X cs +
        ∑ n ∈ uncovered_final G X cs, G.pop n = total_population G := by
  obtain ⟨cs, hcs⟩ := (greedy_terminates G X hX).2
  obtain ⟨⟨tail, htail, hmem⟩, _⟩ :=
    greedyLoop_covers G X G.nodes.length G.nodeSet [] cs hcs
  have hsub : all_covered G X cs ⊆ G.nodeSet :=
    all_covered_subset_nodeSet G X cs (by
      intro c hc v hv
      refine hmem c ?_ v hv
      rwa [htail, List.nil_append] at hc)
  refine ⟨cs, hcs, ?_⟩
  rw [covered_population, uncovered_final, add_comm,
    Finset.sum_sdiff hsub, total_population, Graph.nodeSet,
    List.sum_toFinset G.pop hnd]

/-- Witness for `population_conservation` on the 5-node chain. -/
theorem population_conservation_witness :
    0 ≤ (1 : ℤ) ∧ (chainGraph 5 [7, 8, 9, 10, 11]).nodes.Nodup ∧
    ∃ cs, greedy_center_placement (chainGraph 5 [7, 8, 9, 10, 11]) 1 =
        some cs ∧
      covered_population (chainGraph 5 [7, 8, 9, 10, 11]) 1 cs +
        ∑ n ∈ uncovered_final (chainGraph 5 [7, 8, 9, 10, 11]) 1 cs,
          (chainGraph 5 [7, 8, 9, 10, 11]).pop n =
        total_population (chainGraph 5 [7, 8, 9, 10, 11]) :=
  ⟨by decide, by decide, population_conservation
    (chainGraph 5 [7, 8, 9, 10, 11]) 1 (by decide) (by decide)⟩

/-!
### C10: the reported percentage is always exactly 100
-/

/-- C10.  For every graph with at least one node, distinct node
identifiers, positive total population and radius `X ≥ 0`, the run
completes with the union of the centers' reach sets equal to the whole
node set, so the reported coverage percentage is exactly 100: the
statistic can never show partial coverage. -/
theorem coverage_percent_always_100 (G : Graph) (X : ℤ) (hX : 0 ≤ X)
    (hne : G.nodes ≠ []) (hnd : G.nodes.Nodup)
    (hpos : 0 < total_population G) :
    ∃ cs, greedy_center_placement G X = some cs ∧
      all_covered G X cs = G.nodeSet ∧
      coverage_percent G X cs = some 100 := by
  obtain ⟨cs, hcs⟩ := (greedy_terminates G X hX).2
  obtain ⟨⟨tail, htail, hmem⟩, hcov⟩ :=
    greedyLoop_covers G X G.nodes.length G.nodeSet [] cs hcs
  have hsub : all_covered G X cs ⊆ G.nodeSet :=
    all_covered_subset_nodeSet G X cs (by
      intro c hc v hv
      refine hmem c ?_ v hv
      rwa [htail, List.nil_append] at hc)
  have hall : all_covered G X cs = G.nodeSet :=
    Finset.Subset.antisymm hsub hcov
  refine ⟨cs, hcs, hall, ?_⟩
  have hcp : covered_population G X cs = total_population G := by
    rw [covered_population, hall, Graph.nodeSet, List.sum_toFinset G.pop hnd,
      total_population]
  rw [coverage_percent, if_neg (Nat.pos_iff_ne_zero.mp hpos), hcp]
  have hq : (total_population G : ℚ) ≠ 0 :=
    Nat.cast_ne_zero.mpr (Nat.pos_iff_ne_zero.mp hpos)
  rw [div_self hq, one_mul]

/-- Witness for `coverage_percent_always_100` on the 5-node chain. -/
theorem coverage_percent_always_100_witness :
    0 ≤ (1 : ℤ) ∧ (chainGraph 5 [7, 8, 9, 10, 11]).nodes ≠ [] ∧
    (chainGraph 5 [7, 8, 9, 10, 11]).nodes.Nodup ∧
    0 < total_population (chainGraph 5 [7, 8, 9, 10, 11]) ∧
    ∃ cs, greedy_center_placement (chainGraph 5 [7, 8, 9, 10, 11]) 1 =
        some cs ∧
      all_covered (chainGraph 5 [7, 8, 9, 10, 11]) 1 cs =
        (chainGraph 5 [7, 8, 9, 10, 11]).nodeSet ∧
      coverage_percent (chainGraph 5 [7, 8, 9, 10, 11]) 1 cs = some 100 :=
  ⟨by decide, by decide, by decide, by decide,
    coverage_percent_always_100 (chainGraph 5 [7, 8, 9, 10, 11]) 1
      (by decide) (by decide) (by decide) (by decide)⟩

/-!
### C4: reported per-center coverage is the full sorted reach set
-/

/-- C4.  For each center chosen by a completed run, the reported coverage
list contains exactly the nodes of `covered_nodes(c, X)` over the full
node set — not intersected with the uncovered set that remained when the
center was selected — and it is sorted in ascending order without
duplicates. -/
theorem center_coverage_reported (G : Graph) (X : ℤ)
    (cs : List (Option ℕ)) (c : ℕ)
    (hrun : greedy_center_placement G X = some cs) (hc : some c ∈ cs) :
    (center_coverage_list G X c).toFinset = covered_nodes G c X ∧
    List.Sorted (· ≤ ·) (center_coverage_list G X c) ∧
    (center_coverage_list G X c).Nodup := by
  refine ⟨?_, Finset.sort_sorted _ _, Finset.sort_nodup _ _⟩
  rw [center_coverage_list, Finset.sort_toFinset]

/-- Witness for `center_coverage_reported`: the first center of the
5-node chain run. -/
theorem center_coverage_reported_witness :
    greedy_center_placement (chainGraph 5 [10, 10, 10, 10, 10]) 1 =
      some [some 2, some 4] ∧
    some 2 ∈ [some 2, some 4] ∧
    ((center_coverage_list (chainGraph 5 [10, 10, 10, 10, 10]) 1 2).toFinset =
      covered_nodes (chainGraph 5 [10, 10, 10, 10, 10]) 2 1 ∧
    List.Sorted (· ≤ ·)
      (center_coverage_list (chainGraph 5 [10, 10, 10, 10, 10]) 1 2) ∧
    (center_coverage_list (chainGraph 5 [10, 10, 10, 10, 10]) 1 2).Nodup) :=
  ⟨by decide, by decide,
    center_coverage_reported (chainGraph 5 [10, 10, 10, 10, 10]) 1
      [some 2, some 4] 2 (by decide) (by decide)⟩

/-!
### C9: the 5-node chain scenario
-/

/-- C9.  On the chain of 5 nodes, all with population 10, with radius 1,
the greedy placement returns exactly the two centers 2 and 4, their full
reach sets together cover all 5 nodes, and the reported coverage is
exactly 100 percent. -/
theorem chain5_scenario :
    greedy_center_placement (chainGraph 5 [10, 10, 10, 10, 10]) 1 =
      some [some 2, some 4] ∧
    [some 2, some 4].length = 2 ∧
    all_covered (chainGraph 5 [10, 10, 10, 10, 10]) 1 [some 2, some 4] =
      (chainGraph 5 [10, 10, 10, 10, 10]).nodeSet ∧
    uncovered_final (chainGraph 5 [10, 10, 10, 10, 10]) 1
      [some 2, some 4] = ∅ ∧
    coverage_percent (chainGraph 5 [10, 10, 10, 10, 10]) 1
      [some 2, some 4] = some 100 := by
  refine ⟨by decide, rfl, by decide, by decide, ?_⟩
  rw [coverage_percent, if_neg (by decide)]
  norm_num [show covered_population (chainGraph 5 [10, 10, 10, 10, 10]) 1
    [some 2, some 4] = 50 from by decide,
    show total_population (chainGraph 5 [10, 10, 10, 10, 10]) = 50 from by
      decide]

/-!
### C6: zero total population is not recovered as a 0 percent report
-/

/-- C6 counterexample.  On the 2-node chain with both populations 0 and
radius 1 the placement itself completes (center 1 covers both nodes),
but the percentage computation divides by the zero total population:
the embedded `coverage_percent` is `none` (the `ZeroDivisionError` of
line 131), not the `some 0` the claim requires.  The source catches the
exception only in the blanket input-error handler of line 253, which
prints an error instead of a 0 percent figure. -/
theorem zero_population_counterexample :
    greedy_center_placement (chainGraph 2 [0, 0]) 1 = some [some 1] ∧
    total_population (chainGraph 2 [0, 0]) = 0 ∧
    coverage_percent (chainGraph 2 [0, 0]) 1 [some 1] = none ∧
    coverage_percent (chainGraph 2 [0, 0]) 1 [some 1] ≠ some 0 := by
  have h : total_population (chainGraph 2 [0, 0]) = 0 := by decide
  refine ⟨by decide, h, ?_, ?_⟩ <;> rw [coverage_percent, if_pos h]
  exact fun hc => Option.noConfusion hc

/-- C6 amended.  Whenever the total population is zero the coverage
percentage computation has no value: the division of line 131 is
undefined and the `ZeroDivisionError` escapes the reporting code (to be
caught only by the caller's catch-all input handler); no 0 percent
figure is produced. -/
theorem zero_population_division_undefined (G : Graph) (X : ℤ)
    (centers : List (Option ℕ)) (h : total_population G = 0) :
    coverage_percent G X centers = none := by
  rw [coverage_percent, if_pos h]

/-- Witness for `zero_population_division_undefined`. -/
theorem zero_population_division_undefined_witness :
    total_population (chainGraph 2 [0, 0]) = 0 ∧
    coverage_percent (chainGraph 2 [0, 0]) 1 [some 1] = none :=
  ⟨by decide, zero_population_division_undefined (chainGraph 2 [0, 0]) 1
    [some 1] (by decide)⟩

/-!
### C5: a negative radius is not rejected; the loop never terminates
-/

/-- C5 counterexample.  With radius `-1` on the 2-node chain nothing is
rejected up front: the loop body runs, the node scan selects nothing
(every coverage set is empty), nothing is removed from the uncovered
set, and the run yields no result — the embedded loop returns `none`
for its full fuel budget, modelling non-termination, and the source
defines no `InvalidRadiusError` anywhere. -/
theorem negative_radius_counterexample :
    covered_nodes (chainGraph 2 [10, 10]) 1 (-1) = ∅ ∧
    selectBest (chainGraph 2 [10, 10]) (-1)
      (chainGraph 2 [10, 10]).nodeSet = (none, ∅) ∧
    greedy_center_placement (chainGraph 2 [10, 10]) (-1) = none := by
  refine ⟨by decide, by decide, by decide⟩

/-- With a negative radius every candidate's cover is empty, so the node
scan keeps its initial `(None, set())` accumulator. -/
lemma selectBest_neg (G : Graph) (X : ℤ) (hX : X < 0)
    (uncovered : Finset ℕ) : selectBest G X uncovered = (none, ∅) := by
  rcases selectBest_spec G X uncovered with ⟨hres, _⟩ |
    ⟨l1, v, l2, _, _, hpos, _, _⟩
  · exact hres
  · rw [covered_nodes, if_pos hX] at hpos
    simp at hpos

/-- C5 amended.  The code performs no radius validation and defines no
`InvalidRadiusError`.  For every radius `X < 0` and every graph that
still has an uncovered node, each iteration of the greedy loop selects
no node and removes nothing, so the loop never terminates: the
fuel-bounded embedding returns `none` for every fuel budget, and in
particular `greedy_center_placement` produces no result. -/
theorem negative_radius_diverges (G : Graph) (X : ℤ) (hX : X < 0)
    (hne : G.nodeSet.Nonempty) :
    (∀ uncovered, selectBest G X uncovered = (none, ∅)) ∧
    (∀ fuel centers, greedyLoop G X fuel G.nodeSet centers = none) ∧
    greedy_center_placement G X = none := by
  have hloop : ∀ (fuel : ℕ) (uncovered : Finset ℕ)
      (centers : List (Option ℕ)), uncovered.Nonempty →
      greedyLoop G X fuel uncovered centers = none := by
    intro fuel
    induction fuel with
    | zero =>
      intro uncovered centers hu
      rw [greedyLoop, if_neg (Finset.nonempty_iff_ne_empty.mp hu)]
    | succ fuel ih =>
      intro uncovered centers hu
      rw [greedyLoop_succ G X fuel uncovered centers
        (Finset.nonempty_iff_ne_empty.mp hu), selectBest_neg G X hX]
      exact ih _ _ (by simpa using hu)
  exact ⟨selectBest_neg G X hX, fun fuel centers => hloop fuel _ centers hne,
    hloop _ _ _ hne⟩

/-- Witness for `negative_radius_diverges`. -/
theorem negative_radius_diverges_witness :
    (-1 : ℤ) < 0 ∧ (chainGraph 2 [10, 10]).nodeSet.Nonempty ∧
    ((∀ uncovered, selectBest (chainGraph 2 [10, 10]) (-1) uncovered =
      (none, ∅)) ∧
    (∀ fuel centers, greedyLoop (chainGraph 2 [10, 10]) (-1) fuel
      (chainGraph 2 [10, 10]).nodeSet centers = none) ∧
    greedy_center_placement (chainGraph 2 [10, 10]) (-1) = none) :=
  ⟨by decide, by decide,
    negative_radius_diverges (chainGraph 2 [10, 10]) (-1) (by decide)
      (by decide)⟩

/-!
### C8: the center count is not monotone in the radius
-/

/-- The 9-node graph on which greedy placement needs more centers at
radius 3 than at radius 2. -/
def G9 : Graph :=
  ⟨List.range' 1 9, [(1, 5), (1, 8), (2, 4), (2, 5), (3, 8), (4, 9),
    (6, 7), (6, 9)], fun _ => 10⟩

/-- C8 counterexample.  On the 9-node graph `G9` the greedy placement
uses 2 centers at radius 2 but 3 centers at radius 3: enlarging the
radius increased the number of centers, refuting monotonicity. -/
theorem radius_monotonicity_counterexample :
    greedy_center_placement G9 2 = some [some 1, some 6] ∧
    greedy_center_placement G9 3 = some [some 2, some 1, some 4] ∧
    [some 1, some 6].length = 2 ∧
    [some 2, some 1, some 4].length = 3 ∧ ¬(3 ≤ 2) := by
  refine ⟨by decide, by decide, rfl, rfl, by decide⟩

/-!
### Chain graphs: the exact center count, monotone in the radius

On the chain graphs the application actually constructs, the greedy run
provably selects the blocks `[m, m+2X]` left to right and uses exactly
`⌈N / (2X+1)⌉` centers, which is non-increasing in `X`.
-/

lemma chain_nodes (N : ℕ) (pops : List ℕ) :
    (chainGraph N pops).nodes = List.range' 1 N := rfl

lemma chain_mem_nodes (N : ℕ) (pops : List ℕ) (v : ℕ) :
    v ∈ (chainGraph N pops).nodes ↔ 1 ≤ v ∧ v ≤ N := by
  rw [chain_nodes, List.mem_range'_1]
  omega

lemma chain_nodeSet (N : ℕ) (pops : List ℕ) :
    (chainGraph N pops).nodeSet = Finset.Icc 1 N := by
  ext u
  rw [Graph.nodeSet, List.mem_toFinset, chain_mem_nodes, Finset.mem_Icc]

/-- Membership in the chain's edge list. -/
lemma chain_edge_mem (N : ℕ) (pops : List ℕ) (w u : ℕ) :
    (w, u) ∈ (chainGraph N pops).edges ↔ u = w + 1 ∧ 1 ≤ w ∧ w + 1 ≤ N := by
  show (w, u) ∈ (List.range' 1 (N - 1)).map (fun i => (i, i + 1)) ↔ _
  simp only [List.mem_map, List.mem_range'_1, Prod.mk.injEq]
  constructor
  · rintro ⟨i, ⟨hi1, hi2⟩, rfl, rfl⟩
    omega
  · rintro ⟨rfl, hw1, hwN⟩
    exact ⟨w, by omega, rfl, rfl⟩

/-- Adjacency on the chain relates exactly consecutive in-range nodes. -/
lemma chain_adj (N : ℕ) (pops : List ℕ) (w u : ℕ) :
    (chainGraph N pops).Adj w u ↔
      (u = w + 1 ∧ 1 ≤ w ∧ u ≤ N) ∨ (w = u + 1 ∧ 1 ≤ u ∧ w ≤ N) := by
  rw [Graph.Adj, chain_edge_mem, chain_edge_mem]
  omega

/-- Intersection of two natural-number intervals. -/
lemma finset_Icc_inter (a b c d : ℕ) :
    Finset.Icc a b ∩ Finset.Icc c d = Finset.Icc (max a c) (min b d) := by
  ext u
  simp only [Finset.mem_inter, Finset.mem_Icc]
  omega

/-- Removing a covered lower block from an interval. -/
lemma finset_Icc_sdiff (m N c : ℕ) (hc : m ≤ c) :
    Finset.Icc m N \ Finset.Icc m c = Finset.Icc (c + 1) N := by
  ext u
  simp only [Finset.mem_sdiff, Finset.mem_Icc, not_and, not_le]
  omega

/-- One expansion step of an in-range interval on the chain widens it by
one node on each side, clipped to `[1, N]`. -/
lemma chain_expand_Icc (N : ℕ) (pops : List ℕ) (a b : ℕ) (ha : 1 ≤ a)
    (hab : a ≤ b) (hb : b ≤ N) :
    (chainGraph N pops).expand (Finset.Icc a b) =
      Finset.Icc (max 1 (a - 1)) (min N (b + 1)) := by
  ext u
  simp only [Graph.expand, Finset.mem_filter, chain_nodeSet, Finset.mem_Icc,
    chain_adj]
  constructor
  · rintro ⟨⟨hu1, huN⟩, hin | ⟨w, ⟨hw1, hwb⟩, hadj⟩⟩
    · omega
    · omega
  · rintro ⟨hu1, hu2⟩
    by_cases hin : a ≤ u ∧ u ≤ b
    · exact ⟨by omega, Or.inl hin⟩
    · by_cases hlt : u < a
      · exact ⟨by omega, Or.inr ⟨a, ⟨le_refl a, hab⟩, Or.inr (by omega)⟩⟩
      · exact ⟨by omega, Or.inr ⟨b, ⟨hab, le_refl b⟩, Or.inl (by omega)⟩⟩

/-- The BFS ball on the chain is an interval clipped to `[1, N]`. -/
lemma chain_ball (N : ℕ) (pops : List ℕ) (v : ℕ) (hv1 : 1 ≤ v)
    (hvN : v ≤ N) :
    ∀ k, (chainGraph N pops).ball v k =
      Finset.Icc (max 1 (v - k)) (min N (v + k)) := by
  intro k
  induction k with
  | zero =>
    show ({v} : Finset ℕ) = _
    have h1 : max 1 (v - 0) = v := by omega
    have h2 : min N (v + 0) = v := by omega
    rw [h1, h2, Finset.Icc_self]
  | succ k ih =>
    show (chainGraph N pops).expand ((chainGraph N pops).ball v k) = _
    rw [ih, chain_expand_Icc N pops _ _ (le_max_left 1 _) (by omega) (by omega)]
    congr 1 <;> omega

/-- A coverage query with a radius cast from a natural number is the
plain BFS ball. -/
lemma covered_nodes_natCast (G : Graph) (v : ℕ) (X : ℕ) :
    covered_nodes G v (X : ℤ) = G.ball v X := by
  rw [covered_nodes, if_neg (not_lt.mpr (Int.natCast_nonneg X)),
    Int.toNat_natCast]

/-- The gain of an in-range node against the uncovered tail `[m, N]`. -/
lemma chain_gain (N : ℕ) (pops : List ℕ) (X m u : ℕ) (hu1 : 1 ≤ u)
    (huN : u ≤ N) (hm1 : 1 ≤ m) :
    covered_nodes (chainGraph N pops) u (X : ℤ) ∩ Finset.Icc m N =
      Finset.Icc (max m (u - X)) (min N (u + X)) := by
  rw [covered_nodes_natCast, chain_ball N pops u hu1 huN X, finset_Icc_inter]
  congr 1 <;> omega

/-- The node list of a chain is strictly increasing. -/
lemma range'_pairwise_lt : ∀ s n : ℕ, (List.range' s n).Pairwise (· < ·)
  | _, 0 => List.Pairwise.nil
  | s, n + 1 => by
    rw [List.range'_succ]
    refine List.Pairwise.cons ?_ (range'_pairwise_lt (s + 1) n)
    intro b hb
    have := List.mem_range'_1.mp hb
    omega

/-- On the chain with uncovered tail `[m, N]`, the scan selects the node
`m + X` (covering the block `[m, m + 2X]`) while a full block remains,
and otherwise the first node whose ball absorbs the whole tail. -/
lemma chain_selectBest (N : ℕ) (pops : List ℕ) (X m : ℕ) (hm1 : 1 ≤ m)
    (hmN : m ≤ N) :
    selectBest (chainGraph N pops) (X : ℤ) (Finset.Icc m N) =
      (some (if m + 2 * X ≤ N then m + X else max 1 (N - X)),
        Finset.Icc m (min N (m + 2 * X))) := by
  obtain ⟨l1, w, l2, hl, hres, hpos, hmax, hbef⟩ :=
    selectBest_finds (chainGraph N pops) (X : ℤ) (Finset.Icc m N)
      (Int.natCast_nonneg X) ⟨m, Finset.mem_Icc.mpr ⟨le_refl m, hmN⟩⟩
      (by rw [chain_nodeSet]; exact Finset.Icc_subset_Icc hm1 (le_refl N))
  have hwmem : w ∈ (chainGraph N pops).nodes := by
    rw [hl]
    exact List.mem_append.mpr (Or.inr (List.mem_cons_self w l2))
  obtain ⟨hw1, hwN⟩ := (chain_mem_nodes N pops w).mp hwmem
  have hgcard : ∀ u, 1 ≤ u → u ≤ N →
      (covered_nodes (chainGraph N pops) u (X : ℤ) ∩ Finset.Icc m N).card =
      min N (u + X) + 1 - max m (u - X) := by
    intro u hu1 huN
    rw [chain_gain N pops X m u hu1 huN hm1, Nat.card_Icc]
  have hv1 : 1 ≤ (if m + 2 * X ≤ N then m + X else max 1 (N - X)) := by
    split <;> omega
  have hvN : (if m + 2 * X ≤ N then m + X else max 1 (N - X)) ≤ N := by
    split <;> omega
  have hvmem : (if m + 2 * X ≤ N then m + X else max 1 (N - X)) ∈
      (chainGraph N pops).nodes := (chain_mem_nodes N pops _).mpr ⟨hv1, hvN⟩
  have hcand_max : ∀ u, 1 ≤ u → u ≤ N →
      (covered_nodes (chainGraph N pops) u (X : ℤ) ∩ Finset.Icc m N).card ≤
      (covered_nodes (chainGraph N pops)
        (if m + 2 * X ≤ N then m + X else max 1 (N - X)) (X : ℤ) ∩
        Finset.Icc m N).card := by
    intro u hu1 huN
    rw [hgcard u hu1 huN, hgcard _ hv1 hvN]
    split <;> omega
  have hcand_strict : ∀ u, 1 ≤ u → u ≤ N →
      u < (if m + 2 * X ≤ N then m + X else max 1 (N - X)) →
      (covered_nodes (chainGraph N pops) u (X : ℤ) ∩ Finset.Icc m N).card <
      (covered_nodes (chainGraph N pops)
        (if m + 2 * X ≤ N then m + X else max 1 (N - X)) (X : ℤ) ∩
        Finset.Icc m N).card := by
    intro u hu1 huN hu
    rw [hgcard u hu1 huN, hgcard _ hv1 hvN]
    by_cases hc : m + 2 * X ≤ N
    · rw [if_pos hc] at hu ⊢
      omega
    · rw [if_neg hc] at hu ⊢
      omega
  have heq : w = (if m + 2 * X ≤ N then m + X else max 1 (N - X)) := by
    by_contra hne
    rcases Nat.lt_or_ge w (if m + 2 * X ≤ N then m + X else max 1 (N - X))
      with hlt | hge
    · have h1 := hcand_strict w hw1 hwN hlt
      have h2 := hmax _ hvmem
      omega
    · have hlt : (if m + 2 * X ≤ N then m + X else max 1 (N - X)) < w := by
        omega
      have hpair : ((chainGraph N pops).nodes).Pairwise (· < ·) := by
        rw [chain_nodes]
        exact range'_pairwise_lt 1 N
      rw [hl] at hpair
      have hsplit := List.pairwise_append.mp hpair
      have hvin : (if m + 2 * X ≤ N then m + X else max 1 (N - X)) ∈ l1 := by
        have hmem2 : (if m + 2 * X ≤ N then m + X else max 1 (N - X)) ∈
            l1 ++ w :: l2 := by rw [← hl]; exact hvmem
        rcases List.mem_append.mp hmem2 with h | h
        · exact h
        · rcases List.mem_cons.mp h with h' | h'
          · omega
          · have := (List.pairwise_cons.mp hsplit.2.1).1 _ h'
            omega
      have h1 := hbef _ hvin
      have h2 := hcand_max w hw1 hwN
      omega
  have ha : max m ((if m + 2 * X ≤ N then m + X else max 1 (N - X)) - X) =
      m := by split <;> omega
  have hb : min N ((if m + 2 * X ≤ N then m + X else max 1 (N - X)) + X) =
      min N (m + 2 * X) := by split <;> omega
  rw [hres, heq, chain_gain N pops X m _ hv1 hvN hm1, ha, hb]

/-- First-component form of `chain_selectBest`. -/
lemma chain_selectBest_fst (N : ℕ) (pops : List ℕ) (X m : ℕ) (hm1 : 1 ≤ m)
    (hmN : m ≤ N) :
    (selectBest (chainGraph N pops) (X : ℤ) (Finset.Icc m N)).1 =
      some (if m + 2 * X ≤ N then m + X else max 1 (N - X)) := by
  rw [chain_selectBest N pops X m hm1 hmN]

/-- Second-component form of `chain_selectBest`. -/
lemma chain_selectBest_snd (N : ℕ) (pops : List ℕ) (X m : ℕ) (hm1 : 1 ≤ m)
    (hmN : m ≤ N) :
    (selectBest (chainGraph N pops) (X : ℤ) (Finset.Icc m N)).2 =
      Finset.Icc m (min N (m + 2 * X)) := by
  rw [chain_selectBest N pops X m hm1 hmN]

/-- One greedy block of size `2X+1` accounts for exactly one unit of the
ceiling-division center count. -/
lemma chain_count_step (r X : ℕ) (hr : 1 ≤ r) :
    (r - (2 * X + 1) + 2 * X) / (2 * X + 1) + 1 = (r + 2 * X) / (2 * X + 1) := by
  by_cases h : r ≤ 2 * X + 1
  · have h1 : r - (2 * X + 1) = 0 := by omega
    rw [h1, Nat.zero_add, Nat.div_eq_of_lt (by omega)]
    have h2 : r + 2 * X = (r - 1) + (2 * X + 1) := by omega
    rw [h2, Nat.add_div_right _ (by omega), Nat.div_eq_of_lt (by omega)]
  · have h2 : r - (2 * X + 1) + 2 * X = r + 2 * X - (2 * X + 1) := by omega
    have h3 : r + 2 * X = (r + 2 * X - (2 * X + 1)) + (2 * X + 1) := by omega
    rw [h2]
    conv_rhs => rw [h3]
    rw [Nat.add_div_right _ (by omega)]

/-- The greedy loop on a chain, with the tail `[m, N]` still uncovered,
appends exactly `⌈(N + 1 - m) / (2X + 1)⌉` further centers. -/
lemma chain_loop_count (N X : ℕ) (pops : List ℕ) :
    ∀ (r m fuel : ℕ) (centers : List (Option ℕ)), 1 ≤ m →
      N + 1 - m = r → r ≤ fuel →
      ∃ tail, greedyLoop (chainGraph N pops) (X : ℤ) fuel (Finset.Icc m N)
          centers = some (centers ++ tail) ∧
        tail.length = (r + 2 * X) / (2 * X + 1) := by
  intro r
  induction r using Nat.strong_induction_on with
  | _ r ih =>
    intro m fuel centers hm1 hr hfuel
    by_cases hm : N < m
    · have hempty : Finset.Icc m N = ∅ := Finset.Icc_eq_empty (by omega)
      have hr0 : r = 0 := by omega
      refine ⟨[], ?_, ?_⟩
      · rw [hempty, greedyLoop_empty, List.append_nil]
      · rw [hr0, List.length_nil, Nat.zero_add, Nat.div_eq_of_lt (by omega)]
    · push_neg at hm
      have hrpos : 1 ≤ r := by omega
      obtain ⟨f, rfl⟩ : ∃ f, fuel = f + 1 := ⟨fuel - 1, by omega⟩
      have hne : Finset.Icc m N ≠ ∅ :=
        Finset.nonempty_iff_ne_empty.mp
          ⟨m, Finset.mem_Icc.mpr ⟨le_refl m, hm⟩⟩
      rw [greedyLoop_succ _ _ _ _ _ hne, chain_selectBest_snd N pops X m hm1 hm,
        chain_selectBest_fst N pops X m hm1 hm,
        finset_Icc_sdiff m N (min N (m + 2 * X)) (by omega)]
      obtain ⟨tail, htail, hlen⟩ := ih (r - (2 * X + 1)) (by omega)
        (min N (m + 2 * X) + 1) f
        (centers ++ [some (if m + 2 * X ≤ N then m + X else max 1 (N - X))])
        (by omega) (by omega) (by omega)
      refine ⟨some (if m + 2 * X ≤ N then m + X else max 1 (N - X)) :: tail,
        ?_, ?_⟩
      · rw [htail, List.append_assoc, List.singleton_append]
      · rw [List.length_cons, hlen, chain_count_step r X hrpos]

/-- Every greedy run on a chain of `N` nodes terminates and uses exactly
`⌈N / (2X + 1)⌉` centers. -/
lemma chain_center_count (N X : ℕ) (pops : List ℕ) :
    ∃ cs, greedy_center_placement (chainGraph N pops) (X : ℤ) = some cs ∧
      cs.length = (N + 2 * X) / (2 * X + 1) := by
  obtain ⟨tail, htail, hlen⟩ := chain_loop_count N X pops N 1 N []
    (le_refl 1) (by omega) (le_refl N)
  refine ⟨tail, ?_, hlen⟩
  rw [greedy_center_placement, chain_nodeSet, chain_nodes,
    List.length_range']
  rw [htail, List.nil_append]

/-- The exact chain center count is antitone in the radius. -/
lemma chain_count_le (N X1 X2 : ℕ) (h : X1 ≤ X2) :
    (N + 2 * X2) / (2 * X2 + 1) ≤ (N + 2 * X1) / (2 * X1 + 1) := by
  have ha : 0 < 2 * X1 + 1 := by omega
  have hb : 0 < 2 * X2 + 1 := by omega
  have h1 : N + 2 * X1 <
      ((N + 2 * X1) / (2 * X1 + 1) + 1) * (2 * X1 + 1) :=
    (Nat.div_lt_iff_lt_mul ha).mp (Nat.lt_succ_self _)
  have h2 : N ≤ (N + 2 * X1) / (2 * X1 + 1) * (2 * X1 + 1) := by
    have : ((N + 2 * X1) / (2 * X1 + 1) + 1) * (2 * X1 + 1) =
        (N + 2 * X1) / (2 * X1 + 1) * (2 * X1 + 1) + (2 * X1 + 1) := by ring
    omega
  have h3 : (N + 2 * X1) / (2 * X1 + 1) * (2 * X1 + 1) ≤
      (N + 2 * X1) / (2 * X1 + 1) * (2 * X2 + 1) :=
    Nat.mul_le_mul_left _ (by omega)
  calc (N + 2 * X2) / (2 * X2 + 1)
      ≤ ((N + 2 * X1) / (2 * X1 + 1) * (2 * X2 + 1) + 2 * X2) /
          (2 * X2 + 1) := Nat.div_le_div_right (by omega)
    _ = ((2 * X2 + 1) * ((N + 2 * X1) / (2 * X1 + 1)) + 2 * X2) /
          (2 * X2 + 1) := by
        rw [Nat.mul_comm ((N + 2 * X1) / (2 * X1 + 1)) (2 * X2 + 1)]
    _ = (N + 2 * X1) / (2 * X1 + 1) + 2 * X2 / (2 * X2 + 1) :=
        Nat.mul_add_div hb _ _
    _ = (N + 2 * X1) / (2 * X1 + 1) := by
        rw [Nat.div_eq_of_lt (show 2 * X2 < 2 * X2 + 1 by omega),
          Nat.add_zero]

/-- C8 amended.  The monotonicity of the center count in the radius does
not hold for arbitrary graphs (see the counterexample above), but it does
hold for the chain graphs the application constructs: for radii
`0 ≤ X1 ≤ X2` the greedy run on the chain of `N` nodes uses exactly
`⌈N / (2X + 1)⌉` centers, so the count at `X2` is at most the count at
`X1`. -/
theorem chain_center_count_antitone (N : ℕ) (pops : List ℕ) (X1 X2 : ℕ)
    (h12 : X1 ≤ X2) :
    ∃ cs1 cs2,
      greedy_center_placement (chainGraph N pops) (X1 : ℤ) = some cs1 ∧
      greedy_center_placement (chainGraph N pops) (X2 : ℤ) = some cs2 ∧
      cs1.length = (N + 2 * X1) / (2 * X1 + 1) ∧
      cs2.length = (N + 2 * X2) / (2 * X2 + 1) ∧
      cs2.length ≤ cs1.length := by
  obtain ⟨cs1, h1, hl1⟩ := chain_center_count N X1 pops
  obtain ⟨cs2, h2, hl2⟩ := chain_center_count N X2 pops
  refine ⟨cs1, cs2, h1, h2, hl1, hl2, ?_⟩
  rw [hl1, hl2]
  exact chain_count_le N X1 X2 h12

/-- Witness for `chain_center_count_antitone`: the 5-node chain at radii
1 and 2. -/
theorem chain_center_count_antitone_witness :
    1 ≤ 2 ∧
    ∃ cs1 cs2,
      greedy_center_placement (chainGraph 5 [10, 10, 10, 10, 10])
        ((1 : ℕ) : ℤ) = some cs1 ∧
      greedy_center_placement (chainGraph 5 [10, 10, 10, 10, 10])
        ((2 : ℕ) : ℤ) = some cs2 ∧
      cs1.length = (5 + 2 * 1) / (2 * 1 + 1) ∧
      cs2.length = (5 + 2 * 2) / (2 * 2 + 1) ∧
      cs2.length ≤ cs1.length :=
  ⟨by decide, chain_center_count_antitone 5 [10, 10, 10, 10, 10] 1 2
    (by decide)⟩

end Pbl
